import Mathlib

/-!
Shallow embedding of the retrieval-budgeting engine of the sermon-transcripts
repository (the `ai-context` route handler: query classification, query
expansion, adaptive relevance cutoff, sibling-series expansion, context-budget
allocation and context assembly), together with theorems settling the spec
claims about it.

Scores are embedded as rationals; the external provider calls (auxiliary
model, embedding service, vector index) are embedded as oracle values carried
in a `Providers` record, and the handler additionally returns the list of
provider calls it performed.
-/


-- ## Data model (from `src/app/api/ai-context/route.ts`)

structure ChunkMetadata where
  sermonID : String
  title : String
  preacher : String
  preachDate : String
  bibleText : String
  series : String
  chunkIndex : Nat
  text : String
deriving DecidableEq

structure ScoredChunk where
  metadata : ChunkMetadata
  score : ℚ
deriving DecidableEq

inductive QueryScope
  | narrow
  | medium
  | broad
deriving DecidableEq

structure BudgetProfile where
  topK : Nat
  maxContextChunks : Nat
  maxChunksPerSermon : Nat
  siblingReserve : Nat
  maxSermonsForSeries : Nat
deriving DecidableEq

def BUDGET_PROFILES : QueryScope → BudgetProfile
  | .narrow => ⟨100, 80, 12, 12, 40⟩
  | .medium => ⟨120, 100, 16, 20, 60⟩
  | .broad => ⟨150, 120, 20, 28, 100⟩

-- ## String primitives
-- Structural embeddings of `String.prototype.trim` (strip leading/trailing
-- whitespace) and `String.prototype.toLowerCase` (ASCII case folding), chosen
-- over the library versions so that concrete runs reduce in the kernel.

def isWsChar (c : Char) : Bool :=
  c = ' ' || c = '\t' || c = '\n' || c = '\r'

def jsTrim (s : String) : String :=
  String.mk (((s.data.dropWhile isWsChar).reverse.dropWhile isWsChar).reverse)

def lowerChar (c : Char) : Char :=
  if c.toNat ≥ 65 ∧ c.toNat ≤ 90 then Char.ofNat (c.toNat + 32) else c

def jsToLower (s : String) : String :=
  String.mk (s.data.map lowerChar)

-- ## Query expansion and classification
-- The auxiliary model call is an oracle: either it throws (`Except.error`) or
-- it returns `response.choices[0]?.message?.content`, i.e. an optional string.

def expandQuery (query : String) (resp : Except String (Option String)) : String :=
  match resp with
  | .error _ => query
  | .ok none => query
  | .ok (some content) =>
    let expanded := jsTrim content
    if expanded ≠ "" then expanded else query

def classifyQuery (resp : Except String (Option String)) : QueryScope :=
  match resp with
  | .error _ => QueryScope.medium
  | .ok none => QueryScope.medium
  | .ok (some content) =>
    let raw := jsToLower (jsTrim content)
    if raw = "narrow" then QueryScope.narrow
    else if raw = "medium" then QueryScope.medium
    else if raw = "broad" then QueryScope.broad
    else QueryScope.medium

-- ## Adaptive cutoff

def GAP_THRESHOLD : ℚ := 3 / 100

/-- `Math.max(8, Math.ceil(maxContextChunks * 0.3))`, with the ceiling taken
exactly: `(3 * m + 9) / 10` is `⌈3m/10⌉` in natural division (the JS float
product is exact at every budget-profile value). -/

def minKeepOf (maxContextChunks : Nat) : Nat :=
  max 8 ((3 * maxContextChunks + 9) / 10)

def gapAt (scores : List ℚ) (i : Nat) : ℚ :=
  scores.getD (i - 1) 0 - scores.getD i 0

def cutStep (scores : List ℚ) (st : ℚ × Nat) (i : Nat) : ℚ × Nat :=
  if gapAt scores i > st.1 ∧ GAP_THRESHOLD ≤ gapAt scores i then
    (gapAt scores i, i)
  else st

/-- The index sequence of `for (let i = s; i < s + n; i++)`. -/

def loopIdxs : Nat → Nat → List Nat
  | _, 0 => []
  | s, n + 1 => s :: loopIdxs (s + 1) n

def findAdaptiveCutoff (scores : List ℚ) (maxContextChunks : Nat) : Nat :=
  if scores.length ≤ minKeepOf maxContextChunks then scores.length
  else
    ((loopIdxs (minKeepOf maxContextChunks)
        (scores.length - minKeepOf maxContextChunks)).foldl (cutStep scores)
      (0, scores.length)).2

def demoScores : List ℚ := [1, 1, 1, 1, 1, 1, 1, 1, 1/2, 2/5]

/-- Witness for C2 at `demoScores` and `maxContextChunks = 0`. -/

def bumpCount (counts : String → Nat) (id : String) : String → Nat :=
  fun s => if s = id then counts s + 1 else counts s

def fillLoop (cap maxPer : Nat) :
    List ChunkMetadata → (String → Nat) → List ChunkMetadata →
      (String → Nat) × List ChunkMetadata
  | [], counts, acc => (counts, acc)
  | c :: rest, counts, acc =>
    if cap ≤ acc.length then (counts, acc)
    else if maxPer ≤ counts c.sermonID then fillLoop cap maxPer rest counts acc
    else fillLoop cap maxPer rest (bumpCount counts c.sermonID) (acc ++ [c])

def siblingReservedOf (siblings : List ChunkMetadata) (siblingReserve : Nat) : Nat :=
  min siblings.length siblingReserve

def mainBudgetOf (maxContextChunks : Nat) (siblings : List ChunkMetadata)
    (siblingReserve : Nat) : Nat :=
  maxContextChunks - siblingReservedOf siblings siblingReserve

/-- The first fill loop: quality passages into the main budget. -/

def mainFill (maxContextChunks maxPer siblingReserve : Nat)
    (quality siblings : List ChunkMetadata) :
    (String → Nat) × List ChunkMetadata :=
  fillLoop (mainBudgetOf maxContextChunks siblings siblingReserve) maxPer
    quality (fun _ => 0) []

/-- Both fill loops: the final `chunks` list of the handler. -/

def budgetAllocate (maxContextChunks maxPer siblingReserve : Nat)
    (quality siblings : List ChunkMetadata) : List ChunkMetadata :=
  (fillLoop maxContextChunks maxPer siblings
    (mainFill maxContextChunks maxPer siblingReserve quality siblings).1
    (mainFill maxContextChunks maxPer siblingReserve quality siblings).2).2

def mainPortion (maxContextChunks maxPer siblingReserve : Nat)
    (quality siblings : List ChunkMetadata) : List ChunkMetadata :=
  (mainFill maxContextChunks maxPer siblingReserve quality siblings).2

def siblingPortion (maxContextChunks maxPer siblingReserve : Nat)
    (quality siblings : List ChunkMetadata) : List ChunkMetadata :=
  (budgetAllocate maxContextChunks maxPer siblingReserve quality siblings).drop
    (mainPortion maxContextChunks maxPer siblingReserve quality siblings).length

/-- Number of entries of a given sermon in a chunk list. -/

def sermonCount (id : String) (l : List ChunkMetadata) : Nat :=
  (l.filter (fun c => c.sermonID = id)).length

def mA : ChunkMetadata := ⟨"sermonA", "tA", "pA", "2024", "bA", "S1", 0, "txtA"⟩

def mB : ChunkMetadata := ⟨"sermonB", "tB", "pB", "2024", "bB", "S1", 1, "txtB"⟩

/-- Witness for C4 with one quality chunk and one sibling chunk under the
narrow budget profile. -/

structure MatchRec where
  metadata : Option ChunkMetadata
  score : Option ℚ
deriving DecidableEq

def MAX_SIBLING_CHUNKS_PER_SERMON : Nat := 3

/-- `Map.set`: replace the first entry with the given key, else append. -/

def setEntry : List (String × List ChunkMetadata) → String → List ChunkMetadata →
    List (String × List ChunkMetadata)
  | [], k, v => [(k, v)]
  | (k2, v2) :: rest, k, v =>
    if k2 = k then (k, v) :: rest else (k2, v2) :: setEntry rest k v

/-- One iteration of the sibling-collection loop body: skip matches without
metadata, skip sermons already in the primary quality set, cap each sermon at
`MAX_SIBLING_CHUNKS_PER_SERMON` chunks, else push the chunk. -/

def insertSibling (primaryIDs : List String)
    (acc : List (String × List ChunkMetadata)) (m : MatchRec) :
    List (String × List ChunkMetadata) :=
  match m.metadata with
  | none => acc
  | some chunk =>
    if chunk.sermonID ∈ primaryIDs then acc
    else if MAX_SIBLING_CHUNKS_PER_SERMON ≤
        ((acc.lookup chunk.sermonID).getD []).length then acc
    else setEntry acc chunk.sermonID
      (((acc.lookup chunk.sermonID).getD []) ++ [chunk])

/-- `siblingsBySermon` after iterating over every grouping query matches
(one shared map across all grouping queries). -/

def collectSiblings (primaryIDs : List String) (results : List (List MatchRec)) :
    List (String × List ChunkMetadata) :=
  results.flatten.foldl (insertSibling primaryIDs) []

/-- `[...siblingsBySermon.values()].flat()`. -/

def seriesSiblingChunksOf (primaryIDs : List String)
    (results : List (List MatchRec)) : List ChunkMetadata :=
  ((collectSiblings primaryIDs results).map Prod.snd).flatten

/-- Invariant of the sibling map: keys are distinct, each entry holds at most
3 chunks, no entry's sermon is in the primary set, and every chunk sits under
its own sermon's key. -/

def SibInv (primaryIDs : List String)
    (acc : List (String × List ChunkMetadata)) : Prop :=
  (acc.map Prod.fst).Nodup ∧
    ∀ e ∈ acc, e.2.length ≤ 3 ∧ e.1 ∉ primaryIDs ∧ ∀ c ∈ e.2, c.sermonID = e.1

structure SourceMeta where
  title : String
  preacher : String
  preachDate : String
  bibleText : String
deriving DecidableEq

def sourceMetaOf (c : ChunkMetadata) : SourceMeta :=
  ⟨c.title, c.preacher, c.preachDate, c.bibleText⟩

/-- One iteration of the citation-dedup loop: `if (!sourceMap.has(id)) set`. -/

def insertSource (acc : List (String × SourceMeta)) (c : ChunkMetadata) :
    List (String × SourceMeta) :=
  if c.sermonID ∈ acc.map Prod.fst then acc
  else acc ++ [(c.sermonID, sourceMetaOf c)]

def buildSourceMap (chunks : List ChunkMetadata) : List (String × SourceMeta) :=
  chunks.foldl insertSource []

structure SourceEntry where
  sermonID : String
  title : String
  preacher : String
  preachDate : String
  bibleText : String
deriving DecidableEq

/-- `Array.from(sourceMap.entries()).map(...)`. -/

def assembleSources (chunks : List ChunkMetadata) : List SourceEntry :=
  (buildSourceMap chunks).map fun e =>
    ⟨e.1, e.2.title, e.2.preacher, e.2.preachDate, e.2.bibleText⟩

inductive QueryField
  | missing
  | nonString
  | str (s : String)
deriving DecidableEq

/-- `!query || typeof query !== "string" || query.trim().length === 0`
(`missing` covers an absent/null field, `nonString` any non-string value;
both are rejected by the first two disjuncts). -/

def queryInvalid : QueryField → Bool
  | .missing => true
  | .nonString => true
  | .str s => s == "" || jsTrim s == ""

inductive ProviderCall
  | classify
  | expand
  | embedText
  | primaryVector
  | siblingVector (seriesID : String)
deriving DecidableEq

/-- Oracle values for the external collaborators: the two auxiliary model
calls, the embedding call, the primary vector query and the per-series
filtered sibling vector queries. `Except.error` models a thrown exception. -/

structure Providers where
  classifyResp : Except String (Option String)
  expandResp : Except String (Option String)
  embedResp : Except String (List ℚ)
  primaryResp : Except String (List MatchRec)
  siblingResp : String → Except String (List MatchRec)

structure AiContextResponse where
  context : String
  sources : List SourceEntry
  scope : QueryScope
deriving DecidableEq

inductive ResponseBody
  | errorBody (msg : String)
  | payloadBody (p : AiContextResponse)
  | thrownBody (msg : String)
deriving DecidableEq

/-- An HTTP response; `thrownBody` is an exception escaping the handler,
surfaced by the framework as a 500. -/

structure ApiResponse where
  status : Nat
  body : ResponseBody
deriving DecidableEq

/-- Step 4 of the handler: keep matches with metadata and a numeric score. -/

def scoredChunksOf (ms : List MatchRec) : List ScoredChunk :=
  ms.filterMap fun m =>
    match m.metadata, m.score with
    | some md, some s => some ⟨md, s⟩
    | _, _ => none

/-- Step 5: quality chunks after the adaptive gap cutoff. -/

def qualityChunksOf (ms : List MatchRec) (maxContextChunks : Nat) :
    List ScoredChunk :=
  (scoredChunksOf ms).take
    (findAdaptiveCutoff ((scoredChunksOf ms).map ScoredChunk.score)
      maxContextChunks)

/-- Step 6: collect series IDs from top-ranked results, stopping once
`maxSermonsForSeries` distinct sermons have been seen. -/

def collectTopSeries (maxSermons : Nat) :
    List ChunkMetadata → List String → List String → List String
  | [], _, topSeries => topSeries
  | c :: rest, seenSermons, topSeries =>
    if c.sermonID ∈ seenSermons then
      collectTopSeries maxSermons rest seenSermons topSeries
    else
      let seen2 := seenSermons ++ [c.sermonID]
      let top2 :=
        if c.series ≠ "" ∧ c.series ∉ topSeries then topSeries ++ [c.series]
        else topSeries
      if maxSermons ≤ seen2.length then top2
      else collectTopSeries maxSermons rest seen2 top2

def topSeriesOf (budget : BudgetProfile) (ms : List MatchRec) : List String :=
  collectTopSeries budget.maxSermonsForSeries
    ((qualityChunksOf ms budget.maxContextChunks).map ScoredChunk.metadata)
    [] []

/-- The sequential sibling-query loop: one awaited query per series ID, with
no surrounding try/catch — the first error aborts the loop and propagates.
Also returns the vector-index calls that were issued. -/

def runSiblingQueries (sq : String → Except String (List MatchRec)) :
    List String → Except String (List (List MatchRec)) × List ProviderCall
  | [] => (.ok [], [])
  | id :: rest =>
    match sq id with
    | .error e => (.error e, [.siblingVector id])
    | .ok r =>
      ((runSiblingQueries sq rest).1.map fun rs => r :: rs,
        .siblingVector id :: (runSiblingQueries sq rest).2)

/-- Step 8: the delimited context block with inline source headers. -/

def contextString (chunks : List ChunkMetadata) : String :=
  String.intercalate "\n\n---\n\n" <| chunks.enum.map fun p =>
    "[Source " ++ toString (p.1 + 1) ++ ": \"" ++ p.2.title ++ "\" by " ++
      p.2.preacher ++
      (if p.2.bibleText ≠ "" then " (" ++ p.2.bibleText ++ ")" else "") ++
      (if p.2.preachDate ≠ "" then ", " ++ p.2.preachDate else "") ++
      "]\n" ++ p.2.text

/-- The tail of the handler: the empty-result check, then citation dedup and
context assembly. -/

def finishContext (scope : QueryScope) (chunks : List ChunkMetadata) :
    ApiResponse :=
  if chunks.length = 0 then
    ⟨200, .errorBody "No relevant sermon content found"⟩
  else
    ⟨200, .payloadBody ⟨contextString chunks, assembleSources chunks, scope⟩⟩

/-- The whole `POST` handler, returning the response together with the list
of external provider calls performed. -/

def POST (q : QueryField) (p : Providers) : ApiResponse × List ProviderCall :=
  if queryInvalid q then
    (⟨400, .errorBody "Query is required"⟩, [])
  else
    match p.embedResp with
    | .error e =>
      (⟨500, .thrownBody e⟩, [.classify, .expand, .embedText])
    | .ok _ =>
      match p.primaryResp with
      | .error e =>
        (⟨500, .thrownBody e⟩, [.classify, .expand, .embedText, .primaryVector])
      | .ok ms =>
        let scope := classifyQuery p.classifyResp
        let budget := BUDGET_PROFILES scope
        let sib := runSiblingQueries p.siblingResp (topSeriesOf budget ms)
        let baseCalls : List ProviderCall :=
          [.classify, .expand, .embedText, .primaryVector]
        match sib.1 with
        | .error e => (⟨500, .thrownBody e⟩, baseCalls ++ sib.2)
        | .ok results =>
          let primaryIDs := (qualityChunksOf ms budget.maxContextChunks).map
            fun c => c.metadata.sermonID
          let siblings := seriesSiblingChunksOf primaryIDs results
          let chunks := budgetAllocate budget.maxContextChunks
            budget.maxChunksPerSermon budget.siblingReserve
            ((qualityChunksOf ms budget.maxContextChunks).map
              ScoredChunk.metadata)
            siblings
          (finishContext scope chunks, baseCalls ++ sib.2)

-- ## Stage lemmas for empty primary results

def pEmpty : Providers :=
  ⟨Except.error "classifier down", Except.error "expander down", Except.ok [1],
    Except.ok [], fun _ => Except.error "unused"⟩

/-- Witness for C9: a missing query field. -/

def cMeta : ChunkMetadata :=
  ⟨"sermon1", "Title One", "Preacher One", "2024-01-01", "John 1",
    "SeriesOne", 0, "body text"⟩

/-- Providers where the primary query succeeds with one in-series match and
every sibling (series-filtered) query throws. -/

def cProviders : Providers :=
  ⟨Except.error "classifier down", Except.error "expander down",
    Except.ok [1], Except.ok [⟨some cMeta, some (9/10)⟩],
    fun _ => Except.error "sibling query failed"⟩

/-- Counterexample to C1 as stated: one grouping's sibling query raises an
error and the request fails with that error (a thrown exception, surfaced
as a 500) instead of returning a normal result built from the primary
quality passages. -/

-- # THEOREMS

theorem cutoff_eval_short_list : findAdaptiveCutoff [1, 1, 1, 1, 1] 80 = 5 := by decide

theorem cutoff_eval_gap_at_8 :
    findAdaptiveCutoff [1, 1, 1, 1, 1, 1, 1, 1, 1/2, 2/5] 0 = 8 := by
  norm_num [findAdaptiveCutoff, minKeepOf, loopIdxs, cutStep, gapAt, GAP_THRESHOLD]

theorem cutoff_eval_gap_at_9 :
    findAdaptiveCutoff [1, 1, 1, 1, 1, 1, 1, 1, 99/100, 2/5] 0 = 9 := by
  norm_num [findAdaptiveCutoff, minKeepOf, loopIdxs, cutStep, gapAt, GAP_THRESHOLD]

-- ## Properties of the cutoff scan

theorem mem_loopIdxs (i : Nat) : ∀ s n, i ∈ loopIdxs s n ↔ s ≤ i ∧ i < s + n := by
  intro s n
  induction n generalizing s with
  | zero => simp [loopIdxs]
  | succ n ih =>
    simp only [loopIdxs, List.mem_cons, ih (s + 1)]
    omega

theorem loopIdxs_sorted (s n : Nat) : (loopIdxs s n).Sorted (· < ·) := by
  induction n generalizing s with
  | zero => simp [loopIdxs]
  | succ n ih =>
    rw [loopIdxs, List.sorted_cons]
    refine ⟨fun b hb => ?_, ih (s + 1)⟩
    have := (mem_loopIdxs b (s + 1) n).1 hb
    omega

theorem cutFold_fst_mono (scores : List ℚ) (l : List Nat) (st : ℚ × Nat) :
    st.1 ≤ (l.foldl (cutStep scores) st).1 := by
  induction l generalizing st with
  | nil => exact le_refl _
  | cons i l ih =>
    refine le_trans ?_ (ih (cutStep scores st i))
    unfold cutStep
    split
    · next h => exact le_of_lt h.1
    · exact le_refl _

theorem cutFold_eq_of_forall_le (scores : List ℚ) (l : List Nat) (st : ℚ × Nat)
    (h : ∀ i ∈ l, GAP_THRESHOLD ≤ gapAt scores i → gapAt scores i ≤ st.1) :
    l.foldl (cutStep scores) st = st := by
  induction l with
  | nil => rfl
  | cons i l ih =>
    have hstep : cutStep scores st i = st := by
      unfold cutStep
      split
      · next hc => exact absurd hc.1 (not_lt.mpr (h i (by simp) hc.2))
      · rfl
    rw [List.foldl_cons, hstep]
    exact ih fun j hj => h j (List.mem_cons_of_mem i hj)

theorem cutFold_cases (scores : List ℚ) (l : List Nat) (st : ℚ × Nat) :
    l.foldl (cutStep scores) st = st ∨
      ∃ j ∈ l, GAP_THRESHOLD ≤ gapAt scores j ∧ st.1 < gapAt scores j ∧
        (l.foldl (cutStep scores) st).1 = gapAt scores j ∧
        (l.foldl (cutStep scores) st).2 = j := by
  induction l generalizing st with
  | nil => exact Or.inl rfl
  | cons i l ih =>
    rw [List.foldl_cons]
    by_cases hc : gapAt scores i > st.1 ∧ GAP_THRESHOLD ≤ gapAt scores i
    · have hstep : cutStep scores st i = (gapAt scores i, i) := by
        unfold cutStep
        exact if_pos hc
      rw [hstep]
      rcases ih (gapAt scores i, i) with heq | ⟨j, hj, hQ, hlt, h1, h2⟩
      · exact Or.inr ⟨i, by simp, hc.2, hc.1, by rw [heq], by rw [heq]⟩
      · exact Or.inr ⟨j, List.mem_cons_of_mem i hj, hQ,
          lt_trans hc.1 hlt, h1, h2⟩
    · have hstep : cutStep scores st i = st := by
        unfold cutStep
        exact if_neg hc
      rw [hstep]
      rcases ih st with heq | ⟨j, hj, hQ, hlt, h1, h2⟩
      · exact Or.inl heq
      · exact Or.inr ⟨j, List.mem_cons_of_mem i hj, hQ, hlt, h1, h2⟩

theorem cutFold_le_fst (scores : List ℚ) (l : List Nat) (st : ℚ × Nat) :
    ∀ i ∈ l, GAP_THRESHOLD ≤ gapAt scores i →
      gapAt scores i ≤ (l.foldl (cutStep scores) st).1 := by
  induction l generalizing st with
  | nil => intro i hi; simp at hi
  | cons i0 l ih =>
    intro i hi hQ
    rw [List.foldl_cons]
    rcases List.mem_cons.1 hi with rfl | hmem
    · refine le_trans ?_ (cutFold_fst_mono scores l (cutStep scores st i))
      unfold cutStep
      split
      · exact le_refl _
      · next hc =>
        have : ¬ gapAt scores i > st.1 := fun hgt => hc ⟨hgt, hQ⟩
        exact not_lt.1 this
    · exact ih (cutStep scores st i0) i hmem hQ

theorem cutFold_first_min (scores : List ℚ) (l : List Nat) (st : ℚ × Nat)
    (hsort : l.Sorted (· < ·)) :
    ∀ i ∈ l, GAP_THRESHOLD ≤ gapAt scores i →
      i < (l.foldl (cutStep scores) st).2 →
      gapAt scores i < (l.foldl (cutStep scores) st).1 ∨
        l.foldl (cutStep scores) st = st := by
  induction l generalizing st with
  | nil => intro i hi; simp at hi
  | cons i0 l ih =>
    intro i hi hQ hlt
    rw [List.sorted_cons] at hsort
    rw [List.foldl_cons] at hlt ⊢
    by_cases hc : gapAt scores i0 > st.1 ∧ GAP_THRESHOLD ≤ gapAt scores i0
    · have hstep : cutStep scores st i0 = (gapAt scores i0, i0) := by
        unfold cutStep
        exact if_pos hc
      rw [hstep] at hlt ⊢
      rcases List.mem_cons.1 hi with rfl | hmem
      · rcases cutFold_cases scores l (gapAt scores i, i) with heq | ⟨j, _, _, hgt, h1, _⟩
        · rw [heq] at hlt
          exact absurd hlt (lt_irrefl i)
        · exact Or.inl (by rw [h1]; exact hgt)
      · rcases ih (gapAt scores i0, i0) hsort.2 i hmem hQ hlt with hout | heq
        · exact Or.inl hout
        · rw [heq] at hlt
          exact absurd hlt (not_lt.mpr (le_of_lt (hsort.1 i hmem)))
    · have hstep : cutStep scores st i0 = st := by
        unfold cutStep
        exact if_neg hc
      rw [hstep] at hlt ⊢
      rcases List.mem_cons.1 hi with rfl | hmem
      · have hle : gapAt scores i ≤ st.1 := by
          by_contra hgt
          exact hc ⟨lt_of_not_le hgt, hQ⟩
        rcases cutFold_cases scores l st with heq | ⟨j, _, _, hgt, h1, _⟩
        · exact Or.inr heq
        · exact Or.inl (lt_of_le_of_lt hle (by rw [h1]; exact hgt))
      · exact ih st hsort.2 i hmem hQ hlt

-- ## Claim theorems about the adaptive cutoff

/-- C2: for every descending score list longer than
`minKeep = max(8, ceil(0.3 * maxContextChunks))` that has some adjacent gap
`score[i-1] - score[i] ≥ 0.03` at an index `i` in `[minKeep, length)`, the
adaptive cutoff lies in `[minKeep, length)`, its own gap clears the threshold,
its gap is the largest gap over the whole scanned range, and every earlier
scanned index has a strictly smaller gap (so the lowest index wins a tie,
since the scan only updates on strictly greater gaps). -/

theorem adaptive_cutoff_largest_gap (scores : List ℚ) (maxContextChunks : Nat)
    (hdesc : scores.Sorted (· ≥ ·))
    (hlen : minKeepOf maxContextChunks < scores.length)
    (hex : ∃ i, minKeepOf maxContextChunks ≤ i ∧ i < scores.length ∧
      GAP_THRESHOLD ≤ gapAt scores i) :
    minKeepOf maxContextChunks ≤ findAdaptiveCutoff scores maxContextChunks ∧
    findAdaptiveCutoff scores maxContextChunks < scores.length ∧
    GAP_THRESHOLD ≤ gapAt scores (findAdaptiveCutoff scores maxContextChunks) ∧
    (∀ i, minKeepOf maxContextChunks ≤ i → i < scores.length →
      gapAt scores i ≤ gapAt scores (findAdaptiveCutoff scores maxContextChunks)) ∧
    (∀ i, minKeepOf maxContextChunks ≤ i →
      i < findAdaptiveCutoff scores maxContextChunks →
      gapAt scores i < gapAt scores (findAdaptiveCutoff scores maxContextChunks)) := by
  have hpos : (0 : ℚ) < GAP_THRESHOLD := by norm_num [GAP_THRESHOLD]
  have hnle : ¬ scores.length ≤ minKeepOf maxContextChunks := not_le.mpr hlen
  have hspan : minKeepOf maxContextChunks +
      (scores.length - minKeepOf maxContextChunks) = scores.length := by omega
  have hcut : findAdaptiveCutoff scores maxContextChunks =
      ((loopIdxs (minKeepOf maxContextChunks)
          (scores.length - minKeepOf maxContextChunks)).foldl (cutStep scores)
        (0, scores.length)).2 := by
    unfold findAdaptiveCutoff
    rw [if_neg hnle]
  obtain ⟨i0, hi0a, hi0b, hi0Q⟩ := hex
  have hi0mem : i0 ∈ loopIdxs (minKeepOf maxContextChunks)
      (scores.length - minKeepOf maxContextChunks) :=
    (mem_loopIdxs _ _ _).2 ⟨hi0a, by omega⟩
  rcases cutFold_cases scores
      (loopIdxs (minKeepOf maxContextChunks)
        (scores.length - minKeepOf maxContextChunks)) (0, scores.length) with
    heq | ⟨j, hjmem, hjQ, _, hj1, hj2⟩
  · exfalso
    have hle := cutFold_le_fst scores
      (loopIdxs (minKeepOf maxContextChunks)
        (scores.length - minKeepOf maxContextChunks)) (0, scores.length)
      i0 hi0mem hi0Q
    rw [heq] at hle
    simp only at hle
    linarith
  · have hjb := (mem_loopIdxs j _ _).1 hjmem
    have hjlo : minKeepOf maxContextChunks ≤ j := hjb.1
    have hjhi : j < scores.length := by omega
    have hc : findAdaptiveCutoff scores maxContextChunks = j := by rw [hcut, hj2]
    rw [hc]
    refine ⟨hjlo, hjhi, hjQ, ?_, ?_⟩
    · intro i hia hib
      by_cases hQi : GAP_THRESHOLD ≤ gapAt scores i
      · have hub := cutFold_le_fst scores
          (loopIdxs (minKeepOf maxContextChunks)
            (scores.length - minKeepOf maxContextChunks)) (0, scores.length)
          i ((mem_loopIdxs _ _ _).2 ⟨hia, by omega⟩) hQi
        rw [hj1] at hub
        exact hub
      · exact le_trans (le_of_lt (lt_of_not_le hQi)) hjQ
    · intro i hia hib
      have himem : i ∈ loopIdxs (minKeepOf maxContextChunks)
          (scores.length - minKeepOf maxContextChunks) :=
        (mem_loopIdxs _ _ _).2 ⟨hia, by omega⟩
      by_cases hQi : GAP_THRESHOLD ≤ gapAt scores i
      · have hfirst := cutFold_first_min scores
          (loopIdxs (minKeepOf maxContextChunks)
            (scores.length - minKeepOf maxContextChunks)) (0, scores.length)
          (loopIdxs_sorted _ _) i himem hQi (by rw [hj2]; exact hib)
        rcases hfirst with hlt | heq2
        · rw [hj1] at hlt
          exact hlt
        · rw [heq2] at hj2
          simp only at hj2
          omega
      · exact lt_of_lt_of_le (lt_of_not_le hQi) hjQ

/-- Concrete input for the C2 witness: ten descending scores with the single
qualifying gap (of `1/2`) at index `8 = minKeepOf 0`. -/

theorem adaptive_cutoff_largest_gap_witness :
    minKeepOf 0 ≤ findAdaptiveCutoff demoScores 0 ∧
      findAdaptiveCutoff demoScores 0 < demoScores.length ∧
      GAP_THRESHOLD ≤ gapAt demoScores (findAdaptiveCutoff demoScores 0) := by
  have h := adaptive_cutoff_largest_gap demoScores 0
    (by norm_num [demoScores, List.sorted_cons])
    (by norm_num [demoScores, minKeepOf])
    ⟨8, by norm_num [minKeepOf], by norm_num [demoScores],
      by norm_num [demoScores, gapAt, GAP_THRESHOLD]⟩
  exact ⟨h.1, h.2.1, h.2.2.1⟩

/-- C3: for every descending score list, the adaptive cutoff keeps everything
(returns the full length) both when the list is no longer than
`minKeep = max(8, ceil(0.3 * maxContextChunks))` and when no adjacent gap at
index `minKeep` or beyond reaches the `0.03` threshold (fail-open). -/

theorem adaptive_cutoff_fail_open (scores : List ℚ) (maxContextChunks : Nat)
    (hdesc : scores.Sorted (· ≥ ·))
    (h : scores.length ≤ minKeepOf maxContextChunks ∨
      ∀ i, minKeepOf maxContextChunks ≤ i → i < scores.length →
        gapAt scores i < GAP_THRESHOLD) :
    findAdaptiveCutoff scores maxContextChunks = scores.length := by
  by_cases hle : scores.length ≤ minKeepOf maxContextChunks
  · unfold findAdaptiveCutoff
    rw [if_pos hle]
  · rcases h with hlen | hsmall
    · exact absurd hlen hle
    · unfold findAdaptiveCutoff
      rw [if_neg hle]
      have heq := cutFold_eq_of_forall_le scores
        (loopIdxs (minKeepOf maxContextChunks)
          (scores.length - minKeepOf maxContextChunks)) (0, scores.length) ?_
      · rw [heq]
      · intro i hi hQ
        have hb := (mem_loopIdxs i _ _).1 hi
        exact absurd hQ (not_le.mpr (hsmall i hb.1 (by omega)))

/-- Witness for C3: five equal scores under `maxContextChunks = 80`
(`minKeep = 24`), so everything is kept. -/

theorem adaptive_cutoff_fail_open_witness :
    findAdaptiveCutoff [1, 1, 1, 1, 1] 80 = 5 :=
  adaptive_cutoff_fail_open [1, 1, 1, 1, 1] 80
    (by norm_num [List.sorted_cons])
    (Or.inl (by norm_num [minKeepOf]))

/-- C10: for every score list, the cut index returned by the adaptive cutoff
satisfies `min(minKeep, length) ≤ c ≤ length`: the selector never cuts below
the `minKeep` floor when at least `minKeep` scores are available and never
returns an index past the end of the list. -/

theorem adaptive_cutoff_bounds (scores : List ℚ) (maxContextChunks : Nat) :
    min (minKeepOf maxContextChunks) scores.length ≤
        findAdaptiveCutoff scores maxContextChunks ∧
      findAdaptiveCutoff scores maxContextChunks ≤ scores.length := by
  unfold findAdaptiveCutoff
  by_cases hle : scores.length ≤ minKeepOf maxContextChunks
  · rw [if_pos hle]
    exact ⟨min_le_right _ _, le_refl _⟩
  · rw [if_neg hle]
    rcases cutFold_cases scores
        (loopIdxs (minKeepOf maxContextChunks)
          (scores.length - minKeepOf maxContextChunks)) (0, scores.length) with
      heq | ⟨j, hjmem, _, _, _, hj2⟩
    · rw [heq]
      exact ⟨min_le_right _ _, le_refl _⟩
    · rw [hj2]
      have hb := (mem_loopIdxs j _ _).1 hjmem
      have hspan : minKeepOf maxContextChunks +
          (scores.length - minKeepOf maxContextChunks) = scores.length := by omega
      exact ⟨le_trans (min_le_left _ _) hb.1, by omega⟩

-- ## Budget allocator
-- The two fill loops of the handler share one per-sermon counter
-- (`sermonChunkCounts`) and one output list (`chunks`); a loop stops once the
-- output reaches its cap, skips a chunk whose sermon already reached
-- `maxChunksPerSermon`, and otherwise appends the chunk and bumps the counter.

theorem sermonCount_nil (id : String) : sermonCount id [] = 0 := rfl

theorem sermonCount_append (id : String) (l1 l2 : List ChunkMetadata) :
    sermonCount id (l1 ++ l2) = sermonCount id l1 + sermonCount id l2 := by
  simp [sermonCount, List.filter_append]

theorem sermonCount_singleton (id : String) (c : ChunkMetadata) :
    sermonCount id [c] = if c.sermonID = id then 1 else 0 := by
  simp only [sermonCount, List.filter]
  split
  · next h =>
    rw [if_pos (by simpa using h)]
    rfl
  · next h =>
    rw [if_neg (by simpa using h)]
    rfl

theorem sermonCount_sublist (id : String) (l1 l2 : List ChunkMetadata)
    (h : l1.Sublist l2) : sermonCount id l1 ≤ sermonCount id l2 :=
  List.Sublist.length_le (List.Sublist.filter _ h)

-- The output of a fill loop extends its accumulator by a sublist of its input.

theorem fillLoop_prefix (cap maxPer : Nat) (input : List ChunkMetadata) :
    ∀ counts acc, ∃ extra,
      (fillLoop cap maxPer input counts acc).2 = acc ++ extra ∧
        extra.Sublist input := by
  induction input with
  | nil =>
    intro counts acc
    exact ⟨[], by simp [fillLoop], List.Sublist.refl _⟩
  | cons c rest ih =>
    intro counts acc
    unfold fillLoop
    by_cases h1 : cap ≤ acc.length
    · rw [if_pos h1]
      exact ⟨[], by simp, List.nil_sublist _⟩
    · rw [if_neg h1]
      by_cases h2 : maxPer ≤ counts c.sermonID
      · rw [if_pos h2]
        obtain ⟨extra, he, hs⟩ := ih counts acc
        exact ⟨extra, he, List.Sublist.cons c hs⟩
      · rw [if_neg h2]
        obtain ⟨extra, he, hs⟩ := ih (bumpCount counts c.sermonID) (acc ++ [c])
        exact ⟨c :: extra, by rw [he]; simp, List.Sublist.cons₂ c hs⟩

theorem fillLoop_length_le (cap maxPer : Nat) (input : List ChunkMetadata) :
    ∀ counts acc, (fillLoop cap maxPer input counts acc).2.length ≤
      max cap acc.length := by
  induction input with
  | nil =>
    intro counts acc
    simp [fillLoop]
  | cons c rest ih =>
    intro counts acc
    unfold fillLoop
    by_cases h1 : cap ≤ acc.length
    · rw [if_pos h1]
      simp
    · rw [if_neg h1]
      by_cases h2 : maxPer ≤ counts c.sermonID
      · rw [if_pos h2]
        exact ih counts acc
      · rw [if_neg h2]
        refine le_trans (ih (bumpCount counts c.sermonID) (acc ++ [c])) ?_
        simp only [List.length_append, List.length_singleton]
        omega

-- The shared counter tracks exactly the per-sermon counts of the output.

theorem fillLoop_counts_track (cap maxPer : Nat) (input : List ChunkMetadata) :
    ∀ counts acc, (∀ id, counts id = sermonCount id acc) →
      ∀ id, (fillLoop cap maxPer input counts acc).1 id =
        sermonCount id (fillLoop cap maxPer input counts acc).2 := by
  induction input with
  | nil =>
    intro counts acc h id
    simpa [fillLoop] using h id
  | cons c rest ih =>
    intro counts acc h id
    unfold fillLoop
    by_cases h1 : cap ≤ acc.length
    · rw [if_pos h1]
      exact h id
    · rw [if_neg h1]
      by_cases h2 : maxPer ≤ counts c.sermonID
      · rw [if_pos h2]
        exact ih counts acc h id
      · rw [if_neg h2]
        refine ih (bumpCount counts c.sermonID) (acc ++ [c]) ?_ id
        intro id2
        rw [sermonCount_append, sermonCount_singleton, bumpCount]
        by_cases hid : id2 = c.sermonID
        · rw [if_pos hid, if_pos (by rw [hid]), h id2]
        · rw [if_neg hid, if_neg (fun hh => hid hh.symm), h id2]
          omega

theorem fillLoop_counts_le (cap maxPer : Nat) (input : List ChunkMetadata) :
    ∀ counts acc, (∀ id, counts id ≤ maxPer) →
      ∀ id, (fillLoop cap maxPer input counts acc).1 id ≤ maxPer := by
  induction input with
  | nil =>
    intro counts acc h id
    simpa [fillLoop] using h id
  | cons c rest ih =>
    intro counts acc h id
    unfold fillLoop
    by_cases h1 : cap ≤ acc.length
    · rw [if_pos h1]
      exact h id
    · rw [if_neg h1]
      by_cases h2 : maxPer ≤ counts c.sermonID
      · rw [if_pos h2]
        exact ih counts acc h id
      · rw [if_neg h2]
        refine ih (bumpCount counts c.sermonID) (acc ++ [c]) ?_ id
        intro id2
        rw [bumpCount]
        by_cases hid : id2 = c.sermonID
        · rw [if_pos hid, hid]
          omega
        · rw [if_neg hid]
          exact h id2

/-- C4: the budget allocator (reserve `min(|siblings|, siblingReserve)` slots,
fill `mainBudget = maxContextChunks - siblingReserved` slots from quality
passages, then fill remaining slots from sibling passages against the shared
per-sermon counter) outputs at most `maxContextChunks` chunks, at most
`maxChunksPerSermon` chunks per sermon in the main portion and — provided each
sermon contributes at most 3 sibling passages, which the sibling expander
guarantees — at most 3 per sermon in the sibling portion; the output is the
main portion followed by the sibling portion, and with no sibling passages the
main budget is the full `maxContextChunks` and the output degrades to the
per-sermon-capped prefix of the quality passages alone. -/

theorem budget_allocator_caps (maxContextChunks maxPer siblingReserve : Nat)
    (quality siblings : List ChunkMetadata)
    (hsib : ∀ id, sermonCount id siblings ≤ 3) :
    (budgetAllocate maxContextChunks maxPer siblingReserve quality siblings).length ≤
        maxContextChunks ∧
      (∀ id, sermonCount id
        (mainPortion maxContextChunks maxPer siblingReserve quality siblings) ≤ maxPer) ∧
      (∀ id, sermonCount id
        (siblingPortion maxContextChunks maxPer siblingReserve quality siblings) ≤ 3) ∧
      budgetAllocate maxContextChunks maxPer siblingReserve quality siblings =
        mainPortion maxContextChunks maxPer siblingReserve quality siblings ++
          siblingPortion maxContextChunks maxPer siblingReserve quality siblings ∧
      (siblings = [] →
        mainBudgetOf maxContextChunks [] siblingReserve = maxContextChunks ∧
          budgetAllocate maxContextChunks maxPer siblingReserve quality [] =
            mainPortion maxContextChunks maxPer siblingReserve quality []) := by
  have hmainlen : (mainFill maxContextChunks maxPer siblingReserve quality
      siblings).2.length ≤ mainBudgetOf maxContextChunks siblings siblingReserve := by
    have := fillLoop_length_le
      (mainBudgetOf maxContextChunks siblings siblingReserve) maxPer quality
      (fun _ => 0) []
    simpa [mainFill] using this
  obtain ⟨extra, he, hs⟩ := fillLoop_prefix maxContextChunks maxPer siblings
    (mainFill maxContextChunks maxPer siblingReserve quality siblings).1
    (mainFill maxContextChunks maxPer siblingReserve quality siblings).2
  have hsibeq : siblingPortion maxContextChunks maxPer siblingReserve quality
      siblings = extra := by
    rw [siblingPortion, budgetAllocate, he, mainPortion, List.drop_left]
  refine ⟨?_, ?_, ?_, ?_, ?_⟩
  · have h2 := fillLoop_length_le maxContextChunks maxPer siblings
      (mainFill maxContextChunks maxPer siblingReserve quality siblings).1
      (mainFill maxContextChunks maxPer siblingReserve quality siblings).2
    have hmb : mainBudgetOf maxContextChunks siblings siblingReserve ≤
        maxContextChunks := Nat.sub_le _ _
    rw [budgetAllocate]
    omega
  · intro id
    have htrack := fillLoop_counts_track
      (mainBudgetOf maxContextChunks siblings siblingReserve) maxPer quality
      (fun _ => 0) [] (fun _ => rfl) id
    have hle := fillLoop_counts_le
      (mainBudgetOf maxContextChunks siblings siblingReserve) maxPer quality
      (fun _ => 0) [] (fun _ => Nat.zero_le _) id
    rw [htrack] at hle
    simpa [mainPortion, mainFill] using hle
  · intro id
    rw [hsibeq]
    exact le_trans (sermonCount_sublist id extra siblings hs) (hsib id)
  · rw [hsibeq, budgetAllocate, he, mainPortion]
  · intro hnil
    constructor
    · simp [mainBudgetOf, siblingReservedOf]
    · rw [budgetAllocate, mainPortion]
      rfl

/-- Concrete chunks for witnesses. -/

theorem budget_allocator_caps_witness :
    (budgetAllocate 80 12 12 [mA] [mB]).length ≤ 80 ∧
      (∀ id, sermonCount id (siblingPortion 80 12 12 [mA] [mB]) ≤ 3) := by
  have h := budget_allocator_caps 80 12 12 [mA] [mB]
    (fun id => by rw [sermonCount_singleton]; split <;> omega)
  exact ⟨h.1, h.2.2.1⟩

-- ## Sibling expander
-- A vector-index match: optional metadata (the handler skips matches without
-- it) and optional numeric score (only the primary query filters on it).

theorem lookup_mem (k : String) (v : List ChunkMetadata) :
    ∀ acc : List (String × List ChunkMetadata),
      acc.lookup k = some v → (k, v) ∈ acc := by
  intro acc
  induction acc with
  | nil => intro h; simp [List.lookup] at h
  | cons e rest ih =>
    intro h
    rw [List.lookup] at h
    by_cases hk : k = e.1
    · have hb : (k == e.1) = true := by simpa using hk
      rw [hb] at h
      simp only [Option.some.injEq] at h
      subst hk
      rw [← h]
      simp
    · have hb : (k == e.1) = false := by simpa using hk
      rw [hb] at h
      exact List.mem_cons_of_mem _ (ih h)

theorem mem_setEntry (k : String) (v : List ChunkMetadata)
    (e : String × List ChunkMetadata) :
    ∀ acc, e ∈ setEntry acc k v → e = (k, v) ∨ e ∈ acc := by
  intro acc
  induction acc with
  | nil =>
    intro h
    simp [setEntry] at h
    exact Or.inl h
  | cons e2 rest ih =>
    intro h
    rw [setEntry] at h
    by_cases hk : e2.1 = k
    · rw [if_pos hk] at h
      rcases List.mem_cons.1 h with rfl | hmem
      · exact Or.inl rfl
      · exact Or.inr (List.mem_cons_of_mem _ hmem)
    · rw [if_neg hk] at h
      rcases List.mem_cons.1 h with rfl | hmem
      · exact Or.inr (List.mem_cons_self _ _)
      · rcases ih hmem with h1 | h2
        · exact Or.inl h1
        · exact Or.inr (List.mem_cons_of_mem _ h2)

theorem keys_setEntry (k : String) (v : List ChunkMetadata) :
    ∀ acc : List (String × List ChunkMetadata),
      (setEntry acc k v).map Prod.fst =
        if k ∈ acc.map Prod.fst then acc.map Prod.fst
        else acc.map Prod.fst ++ [k] := by
  intro acc
  induction acc with
  | nil => simp [setEntry]
  | cons e2 rest ih =>
    rw [setEntry]
    by_cases hk : e2.1 = k
    · rw [if_pos hk]
      have : k ∈ (e2 :: rest).map Prod.fst := by
        rw [← hk]
        simp
      rw [if_pos this]
      simp [hk]
    · rw [if_neg hk]
      by_cases hmem : k ∈ rest.map Prod.fst
      · have : k ∈ (e2 :: rest).map Prod.fst := by simp [hmem]
        rw [if_pos this]
        simp only [List.map_cons, ih, if_pos hmem]
      · have : k ∉ (e2 :: rest).map Prod.fst := by
          simp only [List.map_cons, List.mem_cons]
          push_neg
          exact ⟨fun h => hk h.symm, hmem⟩
        rw [if_neg this]
        simp only [List.map_cons, ih, if_neg hmem, List.cons_append]

theorem sibInv_insert (primaryIDs : List String)
    (acc : List (String × List ChunkMetadata)) (m : MatchRec)
    (h : SibInv primaryIDs acc) :
    SibInv primaryIDs (insertSibling primaryIDs acc m) := by
  rcases m with ⟨md, sc⟩
  cases md with
  | none => exact h
  | some chunk =>
    simp only [insertSibling]
    by_cases hp : chunk.sermonID ∈ primaryIDs
    · rw [if_pos hp]
      exact h
    · rw [if_neg hp]
      by_cases hcap : MAX_SIBLING_CHUNKS_PER_SERMON ≤
          ((acc.lookup chunk.sermonID).getD []).length
      · rw [if_pos hcap]
        exact h
      · rw [if_neg hcap]
        constructor
        · rw [keys_setEntry]
          by_cases hk : chunk.sermonID ∈ acc.map Prod.fst
          · rw [if_pos hk]
            exact h.1
          · rw [if_neg hk]
            refine List.Nodup.append h.1 (List.nodup_singleton _) ?_
            intro a ha hb
            rw [List.mem_singleton] at hb
            subst hb
            exact hk ha
        · intro e he
          rcases mem_setEntry _ _ e acc he with rfl | hmem
          · refine ⟨?_, hp, ?_⟩
            · rw [MAX_SIBLING_CHUNKS_PER_SERMON] at hcap
              simp only [List.length_append, List.length_singleton]
              omega
            · intro c hc
              rcases List.mem_append.1 hc with hin | hone
              · cases hlk : acc.lookup chunk.sermonID with
                | none =>
                  rw [hlk] at hin
                  simp at hin
                | some v =>
                  rw [hlk] at hin
                  simp only [Option.getD_some] at hin
                  exact ((h.2 _ (lookup_mem _ _ acc hlk)).2.2) c hin
              · rw [List.mem_singleton] at hone
                subst hone
                rfl
          · exact h.2 e hmem

theorem sibInv_foldl (primaryIDs : List String) (ms : List MatchRec) :
    ∀ acc, SibInv primaryIDs acc →
      SibInv primaryIDs (ms.foldl (insertSibling primaryIDs) acc) := by
  induction ms with
  | nil => intro acc h; exact h
  | cons m rest ih =>
    intro acc h
    exact ih _ (sibInv_insert primaryIDs acc m h)

theorem sermonCount_eq_zero (id : String) (l : List ChunkMetadata)
    (h : ∀ c ∈ l, c.sermonID ≠ id) : sermonCount id l = 0 := by
  rw [sermonCount, List.length_eq_zero, List.filter_eq_nil_iff]
  intro c hc
  simpa using h c hc

theorem sermonCount_le_length (id : String) (l : List ChunkMetadata) :
    sermonCount id l ≤ l.length :=
  List.length_filter_le _ l

theorem sermonCount_flatten_zero (id : String) :
    ∀ m : List (String × List ChunkMetadata),
      (∀ e ∈ m, ∀ c ∈ e.2, c.sermonID = e.1) → id ∉ m.map Prod.fst →
        sermonCount id ((m.map Prod.snd).flatten) = 0 := by
  intro m
  induction m with
  | nil => intro _ _; rfl
  | cons e rest ih =>
    intro hall hnk
    rw [List.map_cons, List.flatten_cons, sermonCount_append]
    have h1 : sermonCount id e.2 = 0 := by
      refine sermonCount_eq_zero id e.2 fun c hc => ?_
      rw [hall e (List.mem_cons_self _ _) c hc]
      intro hfst
      exact hnk (by simp [hfst])
    have h2 : sermonCount id ((rest.map Prod.snd).flatten) = 0 :=
      ih (fun e2 he2 => hall e2 (List.mem_cons_of_mem _ he2))
        (fun hh => hnk (by simp [List.mem_cons]; right; simpa using hh))
    omega

theorem sermonCount_flatten_le (id : String) :
    ∀ m : List (String × List ChunkMetadata),
      (m.map Prod.fst).Nodup →
      (∀ e ∈ m, e.2.length ≤ 3 ∧ ∀ c ∈ e.2, c.sermonID = e.1) →
        sermonCount id ((m.map Prod.snd).flatten) ≤ 3 := by
  intro m
  induction m with
  | nil => intro _ _; simp [sermonCount]
  | cons e rest ih =>
    intro hnd hall
    rw [List.map_cons] at hnd
    rw [List.map_cons, List.flatten_cons, sermonCount_append]
    have hnd2 := List.Nodup.of_cons hnd
    have hke : e.1 ∉ rest.map Prod.fst := (List.nodup_cons.1 hnd).1
    by_cases hid : id = e.1
    · have h2 : sermonCount id ((rest.map Prod.snd).flatten) = 0 := by
        refine sermonCount_flatten_zero id rest
          (fun e2 he2 => (hall e2 (List.mem_cons_of_mem _ he2)).2) ?_
        rw [hid]
        exact hke
      have h1 : sermonCount id e.2 ≤ 3 :=
        le_trans (sermonCount_le_length id e.2)
          (hall e (List.mem_cons_self _ _)).1
      omega
    · have h1 : sermonCount id e.2 = 0 := by
        refine sermonCount_eq_zero id e.2 fun c hc => ?_
        rw [(hall e (List.mem_cons_self _ _)).2 c hc]
        exact fun hh => hid hh.symm
      have h2 := ih hnd2 (fun e2 he2 => hall e2 (List.mem_cons_of_mem _ he2))
      omega

/-- C5: across all grouping queries together, the sibling expander keeps at
most `MAX_SIBLING_CHUNKS_PER_SERMON = 3` passages per sermon (one shared map
and cap across the grouping queries) and never keeps a passage whose sermon is
already in the primary quality set, so sibling sermons are disjoint from
primary sermons. -/

theorem sibling_expander_caps (primaryIDs : List String)
    (results : List (List MatchRec)) :
    (∀ id, sermonCount id (seriesSiblingChunksOf primaryIDs results) ≤ 3) ∧
      ∀ c ∈ seriesSiblingChunksOf primaryIDs results,
        c.sermonID ∉ primaryIDs := by
  have hinv : SibInv primaryIDs (collectSiblings primaryIDs results) :=
    sibInv_foldl primaryIDs results.flatten [] ⟨by simp, by simp⟩
  constructor
  · intro id
    exact sermonCount_flatten_le id _ hinv.1
      (fun e he => ⟨(hinv.2 e he).1, (hinv.2 e he).2.2⟩)
  · intro c hc
    rw [seriesSiblingChunksOf] at hc
    rcases List.mem_flatten.1 hc with ⟨l, hl, hcl⟩
    rcases List.mem_map.1 hl with ⟨e, he, rfl⟩
    rw [(hinv.2 e he).2.2 c hcl]
    exact (hinv.2 e he).2.1

-- ## Context assembler: source citation dedup

theorem keys_insertSource_mem (acc : List (String × SourceMeta))
    (c : ChunkMetadata) (k : String) :
    k ∈ (insertSource acc c).map Prod.fst ↔
      k ∈ acc.map Prod.fst ∨ k = c.sermonID := by
  unfold insertSource
  by_cases h : c.sermonID ∈ acc.map Prod.fst
  · rw [if_pos h]
    constructor
    · exact Or.inl
    · rintro (hk | rfl)
      · exact hk
      · exact h
  · rw [if_neg h]
    simp

theorem selfkey_insertSource (acc : List (String × SourceMeta))
    (c : ChunkMetadata) :
    c.sermonID ∈ (insertSource acc c).map Prod.fst := by
  rw [keys_insertSource_mem]
  exact Or.inr rfl

theorem nodup_insertSource (acc : List (String × SourceMeta))
    (c : ChunkMetadata) (h : (acc.map Prod.fst).Nodup) :
    ((insertSource acc c).map Prod.fst).Nodup := by
  unfold insertSource
  by_cases hk : c.sermonID ∈ acc.map Prod.fst
  · rw [if_pos hk]
    exact h
  · rw [if_neg hk]
    rw [List.map_append]
    refine List.Nodup.append h (List.nodup_singleton _) ?_
    intro a ha hb
    simp only [List.map_cons, List.map_nil, List.mem_singleton] at hb
    subst hb
    exact hk ha

theorem mem_insertSource (acc : List (String × SourceMeta))
    (c : ChunkMetadata) (e : String × SourceMeta)
    (h : e ∈ insertSource acc c) :
    e ∈ acc ∨
      (e = (c.sermonID, sourceMetaOf c) ∧ c.sermonID ∉ acc.map Prod.fst) := by
  unfold insertSource at h
  by_cases hk : c.sermonID ∈ acc.map Prod.fst
  · rw [if_pos hk] at h
    exact Or.inl h
  · rw [if_neg hk] at h
    rcases List.mem_append.1 h with h1 | h2
    · exact Or.inl h1
    · rw [List.mem_singleton] at h2
      exact Or.inr ⟨h2, hk⟩

theorem nodup_buildFold (chunks : List ChunkMetadata) :
    ∀ acc, (acc.map Prod.fst).Nodup →
      ((chunks.foldl insertSource acc).map Prod.fst).Nodup := by
  induction chunks with
  | nil => intro acc h; exact h
  | cons c rest ih =>
    intro acc h
    exact ih (insertSource acc c) (nodup_insertSource acc c h)

theorem mem_keys_buildFold (chunks : List ChunkMetadata) :
    ∀ acc k, k ∈ (chunks.foldl insertSource acc).map Prod.fst ↔
      k ∈ acc.map Prod.fst ∨ k ∈ chunks.map ChunkMetadata.sermonID := by
  induction chunks with
  | nil =>
    intro acc k
    simp
  | cons c rest ih =>
    intro acc k
    rw [List.foldl_cons, ih (insertSource acc c) k, keys_insertSource_mem]
    simp only [List.map_cons, List.mem_cons]
    tauto

theorem firstwins_buildFold (chunks : List ChunkMetadata) :
    ∀ acc id meta, (id, meta) ∈ chunks.foldl insertSource acc →
      (id, meta) ∈ acc ∨
        (id ∉ acc.map Prod.fst ∧ ∃ c,
          chunks.find? (fun x => x.sermonID == id) = some c ∧
          id = c.sermonID ∧ meta = sourceMetaOf c) := by
  induction chunks with
  | nil =>
    intro acc id meta h
    exact Or.inl h
  | cons c0 rest ih =>
    intro acc id meta h
    rw [List.foldl_cons] at h
    rcases ih (insertSource acc c0) id meta h with hin | ⟨hnk, c, hfind, hid, hmeta⟩
    · rcases mem_insertSource acc c0 (id, meta) hin with hacc | ⟨heq, hnk0⟩
      · exact Or.inl hacc
      · have hid : id = c0.sermonID := congrArg Prod.fst heq
        have hmeta : meta = sourceMetaOf c0 := congrArg Prod.snd heq
        refine Or.inr ⟨by rw [hid]; exact hnk0, c0, ?_, hid, hmeta⟩
        rw [List.find?_cons_of_pos]
        simpa using hid.symm
    · have hne : id ≠ c0.sermonID := by
        intro hh
        rw [hh] at hnk
        exact hnk (selfkey_insertSource acc c0)
      have hnk2 : id ∉ acc.map Prod.fst := by
        intro hh
        exact hnk ((keys_insertSource_mem acc c0 id).2 (Or.inl hh))
      refine Or.inr ⟨hnk2, c, ?_, hid, hmeta⟩
      rw [List.find?_cons_of_neg]
      · exact hfind
      · simpa using fun hh => hne hh.symm

/-- C7: the context assembler emits exactly one source citation per distinct
sermon ID appearing in the final chunk list (citation IDs are distinct and
cover exactly the chunk sermon IDs), and each citation's display metadata is
taken from the first chunk of that sermon in the list (first-seen wins). -/

theorem context_assembler_unique_citation (chunks : List ChunkMetadata) :
    ((assembleSources chunks).map SourceEntry.sermonID).Nodup ∧
      (∀ id, id ∈ (assembleSources chunks).map SourceEntry.sermonID ↔
        id ∈ chunks.map ChunkMetadata.sermonID) ∧
      ∀ e ∈ assembleSources chunks, ∃ c,
        chunks.find? (fun x => x.sermonID == e.sermonID) = some c ∧
        e.title = c.title ∧ e.preacher = c.preacher ∧
        e.preachDate = c.preachDate ∧ e.bibleText = c.bibleText := by
  have hmap : (assembleSources chunks).map SourceEntry.sermonID =
      (buildSourceMap chunks).map Prod.fst := by
    rw [assembleSources, List.map_map]
    rfl
  refine ⟨?_, ?_, ?_⟩
  · rw [hmap]
    exact nodup_buildFold chunks [] (by simp)
  · intro id
    rw [hmap, buildSourceMap, mem_keys_buildFold]
    simp
  · intro e he
    obtain ⟨⟨id, meta⟩, hpr, rfl⟩ := List.mem_map.1 he
    rcases firstwins_buildFold chunks [] id meta hpr with hin | ⟨_, c, hfind, hid, hmeta⟩
    · simp at hin
    · subst hmeta
      exact ⟨c, hfind, rfl, rfl, rfl, rfl⟩

-- ## The route handler

theorem scoredChunksOf_nil : scoredChunksOf [] = [] := rfl

theorem qualityChunksOf_nil (maxContextChunks : Nat) :
    qualityChunksOf [] maxContextChunks = [] := by
  simp [qualityChunksOf, scoredChunksOf_nil]

theorem topSeriesOf_nil (budget : BudgetProfile) : topSeriesOf budget [] = [] := by
  rw [topSeriesOf, qualityChunksOf_nil]
  rfl

theorem runSiblingQueries_nil (sq : String → Except String (List MatchRec)) :
    runSiblingQueries sq [] = (.ok [], []) := rfl

theorem seriesSiblingChunksOf_nil (primaryIDs : List String) :
    seriesSiblingChunksOf primaryIDs [] = [] := rfl

theorem budgetAllocate_nil (maxContextChunks maxPer siblingReserve : Nat) :
    budgetAllocate maxContextChunks maxPer siblingReserve [] [] = [] := rfl

-- ## Error-propagation in the sibling loop

theorem runSiblingQueries_error (sq : String → Except String (List MatchRec)) :
    ∀ ids, (∃ id ∈ ids, ∃ e, sq id = Except.error e) →
      ∃ e2, (runSiblingQueries sq ids).1 = Except.error e2 := by
  intro ids
  induction ids with
  | nil =>
    rintro ⟨id, hmem, _⟩
    simp at hmem
  | cons id0 rest ih =>
    rintro ⟨id, hmem, e, he⟩
    cases hq0 : sq id0 with
    | error e0 =>
      exact ⟨e0, by simp [runSiblingQueries, hq0]⟩
    | ok r =>
      rcases List.mem_cons.1 hmem with rfl | hmem2
      · rw [hq0] at he
        cases he
      · obtain ⟨e2, h2⟩ := ih ⟨id, hmem2, e, he⟩
        exact ⟨e2, by simp [runSiblingQueries, hq0, h2, Except.map]⟩

-- ## Claim theorems about the handler

/-- C9: a request whose query field is missing, not a string, or empty after
trimming is rejected with the 400 "Query is required" response before any
classification, expansion, embedding or retrieval: the provider-call trace is
empty. -/

theorem invalid_query_rejected (q : QueryField) (p : Providers)
    (h : q = QueryField.missing ∨ q = QueryField.nonString ∨
      ∃ s, q = QueryField.str s ∧ jsTrim s = "") :
    POST q p = (⟨400, ResponseBody.errorBody "Query is required"⟩, []) := by
  have hq : queryInvalid q = true := by
    rcases h with rfl | rfl | ⟨s, rfl, hs⟩
    · rfl
    · rfl
    · simp [queryInvalid, hs]
  simp [POST, hq]

/-- Providers used by witnesses: both auxiliary calls fail, the embedding
succeeds, and the primary vector query returns zero matches. -/

theorem invalid_query_rejected_witness :
    POST QueryField.missing pEmpty =
      (⟨400, ResponseBody.errorBody "Query is required"⟩, []) :=
  invalid_query_rejected QueryField.missing pEmpty (Or.inl rfl)

/-- C6: when the classifier call fails, returns no content, or returns
anything other than narrow/medium/broad (after trimming and lowercasing), it
returns the `medium` scope; when the expander call fails, returns no content,
or returns an empty (all-whitespace) string, it returns the original query
unchanged. Both are total functions, so neither surfaces an error. -/

theorem classifier_expander_fallback (q : String)
    (respC respE : Except String (Option String))
    (hC : (∃ e, respC = Except.error e) ∨ respC = Except.ok none ∨
      ∃ s, respC = Except.ok (some s) ∧ jsToLower (jsTrim s) ≠ "narrow" ∧
        jsToLower (jsTrim s) ≠ "medium" ∧ jsToLower (jsTrim s) ≠ "broad")
    (hE : (∃ e, respE = Except.error e) ∨ respE = Except.ok none ∨
      ∃ s, respE = Except.ok (some s) ∧ jsTrim s = "") :
    classifyQuery respC = QueryScope.medium ∧ expandQuery q respE = q := by
  constructor
  · rcases hC with ⟨e, rfl⟩ | rfl | ⟨s, rfl, h1, h2, h3⟩
    · rfl
    · rfl
    · simp [classifyQuery, h1, h2, h3]
  · rcases hE with ⟨e, rfl⟩ | rfl | ⟨s, rfl, h1⟩
    · rfl
    · rfl
    · simp [expandQuery, h1]

/-- Witness for C6: a failing classifier call and an expander reply of pure
whitespace. -/

theorem classifier_expander_fallback_witness :
    classifyQuery (Except.error "boom") = QueryScope.medium ∧
      expandQuery "soteriology" (Except.ok (some "  ")) = "soteriology" :=
  classifier_expander_fallback "soteriology" (Except.error "boom")
    (Except.ok (some "  ")) (Or.inl ⟨"boom", rfl⟩)
    (Or.inr (Or.inr ⟨"  ", rfl, by decide⟩))

/-- C8: when the vector index returns zero matches, the handler returns the
distinguished "No relevant sermon content found" outcome as a normal
status-200 result — not an assembled payload and not a transport error. -/

theorem empty_results_no_content (q : QueryField) (p : Providers) (v : List ℚ)
    (hq : queryInvalid q = false)
    (hemb : p.embedResp = Except.ok v)
    (hprim : p.primaryResp = Except.ok []) :
    POST q p =
      (⟨200, ResponseBody.errorBody "No relevant sermon content found"⟩,
        [ProviderCall.classify, ProviderCall.expand, ProviderCall.embedText,
          ProviderCall.primaryVector]) := by
  simp [POST, hq, hemb, hprim, topSeriesOf_nil, runSiblingQueries_nil,
    qualityChunksOf_nil, seriesSiblingChunksOf_nil, budgetAllocate_nil,
    finishContext]

/-- Witness for C8: a valid query against an index with zero matches. -/

theorem empty_results_no_content_witness :
    POST (QueryField.str "grace") pEmpty =
      (⟨200, ResponseBody.errorBody "No relevant sermon content found"⟩,
        [ProviderCall.classify, ProviderCall.expand, ProviderCall.embedText,
          ProviderCall.primaryVector]) :=
  empty_results_no_content (QueryField.str "grace") pEmpty [1] (by decide)
    rfl rfl

-- ## C1: a failing sibling query fails the whole request

/-- A primary match whose sermon belongs to a series, so that sibling
expansion issues a filtered query for that series. -/

theorem sibling_error_fails_request_counterexample :
    (POST (QueryField.str "grace") cProviders).1 =
      ⟨500, ResponseBody.thrownBody "sibling query failed"⟩ := by decide

/-- C1 (amended): the sibling-expansion loop has no try/catch, so whenever
some collected grouping's filtered sibling query raises an error, the error
propagates: the request fails with a thrown error (500) rather than
continuing with the remaining groupings or returning a result built from the
primary quality passages. -/

theorem sibling_error_fails_request (q : QueryField) (p : Providers)
    (ms : List MatchRec) (v : List ℚ)
    (hq : queryInvalid q = false)
    (hemb : p.embedResp = Except.ok v)
    (hprim : p.primaryResp = Except.ok ms)
    (hsib : ∃ id ∈ topSeriesOf
        (BUDGET_PROFILES (classifyQuery p.classifyResp)) ms,
      ∃ e, p.siblingResp id = Except.error e) :
    ∃ e2, (POST q p).1 = ⟨500, ResponseBody.thrownBody e2⟩ := by
  obtain ⟨e2, h2⟩ := runSiblingQueries_error p.siblingResp
    (topSeriesOf (BUDGET_PROFILES (classifyQuery p.classifyResp)) ms) hsib
  exact ⟨e2, by simp [POST, hq, hemb, hprim, h2]⟩

/-- Witness for the amended C1 at the concrete failing providers. -/

theorem sibling_error_fails_request_witness :
    ∃ e2, (POST (QueryField.str "grace") cProviders).1 =
      ⟨500, ResponseBody.thrownBody e2⟩ :=
  sibling_error_fails_request (QueryField.str "grace") cProviders
    [⟨some cMeta, some (9/10)⟩] [1] (by decide) rfl rfl
    ⟨"SeriesOne", by decide, "sibling query failed", rfl⟩
